import Mathlib

/-!
Shallow embedding of the `littledb` key-value store (Rust sources
`value.rs`, `condition.rs`, `storage.rs`, `database.rs`).

Modelling decisions:
* Rust `String` is Lean `String`.
* `i64` payloads are Lean `Int`; the Rust type guarantee `-2^63 ≤ i < 2^63`
  is captured by the well-formedness predicate `Value.wf` where it matters
  (serialization round-trips).
* `f64` payloads are modelled by their 64-bit pattern as a `Nat < 2^64`:
  serialization treats floats as opaque 8-byte words, and no operation of
  the program computes with floats.
* `HashMap<String, Value>` is modelled as an association list with unique
  keys (`NoDupKeys`); `insert` overwrites in place, `remove` erases the
  (unique) matching entry.
* The bincode 1.x wire format (`bincode::serialize`/`deserialize` with the
  default fixed-int little-endian configuration) is modelled byte-for-byte
  for every payload except string contents, where each character is
  abstracted as one symbol of the stream (UTF-8 byte detail elided):
  enum variants are a 4-byte little-endian u32 index in declaration order,
  lengths are 8-byte little-endian u64, `i64` is 8 bytes little-endian
  two's complement, `f64` is its 8-byte pattern, `bool` is one byte 0/1.
* Disk I/O is modelled by a `World`: the target file's contents (`none` =
  file does not exist), a `diskOk` oracle deciding whether a physical write
  succeeds, and a counter of performed writes (one per `StorageEngine.save`
  invocation that reaches the disk).
-/

/-- `value.rs`: the `Value` enum. `float` carries the 64-bit pattern. -/
inductive Value where
  | string : String → Value
  | integer : Int → Value
  | float : Nat → Value
  | boolean : Bool → Value
  | array : List Value → Value
  | object : List (String × Value) → Value
  | null : Value
deriving Repr

/-- The in-memory store type: `HashMap<String, Value>` as an assoc list. -/
abbrev HM := List (String × Value)

/-- `HashMap::get` on the assoc-list model. -/
def hmLookup (k : String) : HM → Option Value
  | [] => none
  | (k', v) :: t => if k' = k then some v else hmLookup k t

/-- `HashMap::contains_key`. -/
def hmContains (k : String) (m : HM) : Bool :=
  (hmLookup k m).isSome

/-- `HashMap::insert`: overwrite the (unique) entry in place, else append. -/
def hmInsert (k : String) (v : Value) : HM → HM
  | [] => [(k, v)]
  | (k', v') :: t => if k' = k then (k, v) :: t else (k', v') :: hmInsert k v t

/-- `HashMap::remove`: erase the first (hence, on well-formed maps, the
unique) entry with the given key. -/
def hmErase (k : String) : HM → HM
  | [] => []
  | (k', v') :: t => if k' = k then t else (k', v') :: hmErase k t

/-- Representation invariant of the `HashMap` model: keys are unique. -/
def NoDupKeys (m : HM) : Prop :=
  (m.map Prod.fst).Nodup

namespace Value

/-- `Value::as_integer`: the payload of the `Integer` variant only; no
coercion from any other variant. -/
def as_integer : Value → Option Int
  | .integer i => some i
  | _ => none

/-- `Value::as_string`. -/
def as_string : Value → Option String
  | .string s => some s
  | _ => none

/-- `Value::get_field`: field lookup, defined only on `Object`. -/
def get_field (v : Value) (field : String) : Option Value :=
  match v with
  | .object obj => hmLookup field obj
  | _ => none

/-- Structural equality, mirroring the derived `PartialEq` on `Value`
(with `f64` compared as its bit pattern) and `HashMap`'s order-insensitive
equality for `Object`. -/
def beq : Value → Value → Bool
  | .string a, .string b => a == b
  | .integer a, .integer b => a == b
  | .float a, .float b => a == b
  | .boolean a, .boolean b => a == b
  | .null, .null => true
  | .array a, .array b => beqList a b
  | .object a, .object b => a.length == b.length && beqPairs a b
  | _, _ => false
where
  beqList : List Value → List Value → Bool
    | [], [] => true
    | x :: xs, y :: ys => beq x y && beqList xs ys
    | _, _ => false
  beqPairs : List (String × Value) → HM → Bool
    | [], _ => true
    | (k, v) :: t, b =>
        (match hmLookup k b with
         | some v' => beq v v'
         | none => false) && beqPairs t b

end Value

/-- Rust `str::contains`: the needle occurs contiguously in the haystack
(checked at every start position). -/
def strContains (hay needle : List Char) : Bool :=
  match hay with
  | [] => needle.isEmpty
  | _ :: t => needle.isPrefixOf hay || strContains t needle

/-- `condition.rs`: the `Condition` enum. -/
inductive Condition where
  | equals : String → Value → Condition
  | greaterThan : String → Int → Condition
  | lessThan : String → Int → Condition
  | contains : String → String → Condition
  | between : String → Int → Int → Condition

/-- `Condition::matches`. -/
def Condition.matches (c : Condition) (value : Value) : Bool :=
  match c with
  | .equals field expected =>
      match value.get_field field with
      | some actual => actual.beq expected
      | none => false
  | .greaterThan field threshold =>
      match value.get_field field with
      | some actual =>
          match actual.as_integer with
          | some num => num > threshold
          | none => false
      | none => false
  | .lessThan field threshold =>
      match value.get_field field with
      | some actual =>
          match actual.as_integer with
          | some num => num < threshold
          | none => false
      | none => false
  | .contains field substring =>
      match value.get_field field with
      | some actual =>
          match actual.as_string with
          | some s => strContains s.data substring.data
          | none => false
      | none => false
  | .between field min max =>
      match value.get_field field with
      | some actual =>
          match actual.as_integer with
          | some num => min ≤ num && num ≤ max
          | none => false
      | none => false

/-! ## The bincode wire format (`storage.rs` payload encoding) -/

/-- A serialized byte stream. String characters are carried as one symbol
each; every other symbol is a genuine byte `< 256`. -/
abbrev Bytes := List Nat

/-- Write `n` as `k` little-endian base-256 digits (i.e. `n mod 2^(8k)`). -/
def writeLE : Nat → Nat → Bytes
  | 0, _ => []
  | k + 1, n => n % 256 :: writeLE k (n / 256)

/-- Read `k` little-endian base-256 digits. -/
def readLE : Nat → Bytes → Option (Nat × Bytes)
  | 0, bs => some (0, bs)
  | _ + 1, [] => none
  | k + 1, b :: bs =>
      match readLE k bs with
      | some (n, rest) => some (b + 256 * n, rest)
      | none => none

/-- bincode `u64` length/word encoding: 8 bytes little-endian. -/
def writeU64 (n : Nat) : Bytes := writeLE 8 n

/-- bincode `i64` encoding: 8 bytes little-endian two's complement. -/
def writeI64 (i : Int) : Bytes := writeLE 8 (i % (2 ^ 64 : Int)).toNat

/-- Two's-complement decoding of a 64-bit word. -/
def decodeI64 (n : Nat) : Int :=
  if n < 2 ^ 63 then (n : Int) else (n : Int) - 2 ^ 64

/-- bincode `String` encoding: u64 length, then the characters. -/
def writeStr (s : String) : Bytes :=
  writeU64 s.data.length ++ s.data.map Char.toNat

/-- Parse a length-prefixed string. -/
def parseStr (bs : Bytes) : Option (String × Bytes) :=
  match readLE 8 bs with
  | some (n, rest) =>
      if n ≤ rest.length then
        some (⟨(rest.take n).map Char.ofNat⟩, rest.drop n)
      else none
  | none => none

mutual

/-- bincode encoding of a `Value`: 4-byte little-endian variant index in
declaration order, then the payload. -/
def serValue : Value → Bytes
  | .string s => writeLE 4 0 ++ writeStr s
  | .integer i => writeLE 4 1 ++ writeI64 i
  | .float bits => writeLE 4 2 ++ writeU64 bits
  | .boolean b => writeLE 4 3 ++ [if b then 1 else 0]
  | .array l => writeLE 4 4 ++ writeU64 l.length ++ serList l
  | .object l => writeLE 4 5 ++ writeU64 l.length ++ serPairs l
  | .null => writeLE 4 6

/-- Concatenated encodings of the elements of a `Vec<Value>`. -/
def serList : List Value → Bytes
  | [] => []
  | v :: t => serValue v ++ serList t

/-- Concatenated encodings of the entries of a `HashMap<String, Value>`
in iteration order. -/
def serPairs : HM → Bytes
  | [] => []
  | (k, v) :: t => writeStr k ++ serValue v ++ serPairs t

end

/-- bincode encoding of the whole store: u64 entry count, then entries. -/
def serMap (m : HM) : Bytes := writeU64 m.length ++ serPairs m

mutual

/-- Fuel-indexed bincode decoder for one `Value`. -/
def parseValue : Nat → Bytes → Option (Value × Bytes)
  | 0, _ => none
  | fuel + 1, bs =>
      match readLE 4 bs with
      | none => none
      | some (tag, r) =>
        match tag with
        | 0 =>
            match parseStr r with
            | some (s, r') => some (.string s, r')
            | none => none
        | 1 =>
            match readLE 8 r with
            | some (n, r') => some (.integer (decodeI64 n), r')
            | none => none
        | 2 =>
            match readLE 8 r with
            | some (n, r') => some (.float n, r')
            | none => none
        | 3 =>
            match r with
            | 0 :: r' => some (.boolean false, r')
            | 1 :: r' => some (.boolean true, r')
            | _ => none
        | 4 =>
            match readLE 8 r with
            | some (n, r') =>
                match parseValues fuel n r' with
                | some (l, r'') => some (.array l, r'')
                | none => none
            | none => none
        | 5 =>
            match readLE 8 r with
            | some (n, r') =>
                match parsePairs fuel n r' with
                | some (l, r'') => some (.object l, r'')
                | none => none
            | none => none
        | 6 => some (.null, r)
        | _ => none
termination_by fuel _ => (fuel, 0)

/-- Decode `n` consecutive `Value`s. -/
def parseValues : Nat → Nat → Bytes → Option (List Value × Bytes)
  | _, 0, bs => some ([], bs)
  | fuel, n + 1, bs =>
      match parseValue fuel bs with
      | some (v, r) =>
          match parseValues fuel n r with
          | some (l, r') => some (v :: l, r')
          | none => none
      | none => none
termination_by fuel n _ => (fuel, n + 1)

/-- Decode `n` consecutive `(String, Value)` entries. -/
def parsePairs : Nat → Nat → Bytes → Option (HM × Bytes)
  | _, 0, bs => some ([], bs)
  | fuel, n + 1, bs =>
      match parseStr bs with
      | some (k, r) =>
          match parseValue fuel r with
          | some (v, r') =>
              match parsePairs fuel n r' with
              | some (l, r'') => some ((k, v) :: l, r'')
              | none => none
          | none => none
      | none => none
termination_by fuel n _ => (fuel, n + 1)

end

/-- bincode decoding of the whole store (`bincode::deserialize` tolerates
trailing bytes). The fuel `|bs| + 1` dominates the nesting depth of
anything encoded in `bs`. -/
def parseMap (bs : Bytes) : Option HM :=
  match readLE 8 bs with
  | some (n, r) =>
      match parsePairs (bs.length + 1) n r with
      | some (m, _) => some m
      | none => none
  | none => none

mutual

/-- Well-formedness guaranteed by the Rust types: `i64` payloads fit in
64-bit two's complement, float patterns fit in 64 bits, and every length
fits in a `u64`. -/
def Value.wf : Value → Bool
  | .string s => s.data.length < 2 ^ 64
  | .integer i => decide (-(2 ^ 63 : Int) ≤ i ∧ i < 2 ^ 63)
  | .float bits => bits < 2 ^ 64
  | .boolean _ => true
  | .null => true
  | .array l => decide (l.length < 2 ^ 64) && Value.wfList l
  | .object l => decide (l.length < 2 ^ 64) && Value.wfPairs l

/-- Well-formedness of a list of values. -/
def Value.wfList : List Value → Bool
  | [] => true
  | v :: t => v.wf && Value.wfList t

/-- Well-formedness of the entries of an object or of the store. -/
def Value.wfPairs : HM → Bool
  | [] => true
  | (k, v) :: t => decide (k.data.length < 2 ^ 64) && v.wf && Value.wfPairs t

end

/-- Well-formedness of a whole store. -/
def wfMap (m : HM) : Bool :=
  decide (m.length < 2 ^ 64) && Value.wfPairs m

mutual

/-- Node-count measure used as parser fuel bound. -/
def Value.size : Value → Nat
  | .string _ => 1
  | .integer _ => 1
  | .float _ => 1
  | .boolean _ => 1
  | .null => 1
  | .array l => 1 + Value.sizeList l
  | .object l => 1 + Value.sizePairs l

/-- Sum of sizes of a list of values. -/
def Value.sizeList : List Value → Nat
  | [] => 0
  | v :: t => v.size + Value.sizeList t

/-- Sum of sizes of the values of an entry list. -/
def Value.sizePairs : HM → Nat
  | [] => 0
  | (_, v) :: t => v.size + Value.sizePairs t

end

/-! ## `storage.rs` and `database.rs` -/

/-- `StorageEngine`: holds only the target file path. -/
structure StorageEngine where
  file_path : String

/-- The observable state of the outside world: the contents of the target
file (`none` when it does not exist), an oracle deciding whether a
physical disk write succeeds, and a count of completed writes. -/
structure World where
  file : Option Bytes
  diskOk : Bool
  writes : Nat

/-- `StorageEngine::new`. -/
def StorageEngine.new (file_path : String) : StorageEngine :=
  { file_path := file_path }

/-- `StorageEngine::save`: serialize the whole map with bincode and write
it to the file (creating or truncating it), or fail if the disk does. -/
def StorageEngine.save (_e : StorageEngine) (data : HM) (w : World) :
    Except String World :=
  if w.diskOk then
    .ok { w with file := some (serMap data), writes := w.writes + 1 }
  else
    .error "io error"

/-- `StorageEngine::load`: a missing file is a fresh empty store; otherwise
read the file and bincode-decode it. -/
def StorageEngine.load (_e : StorageEngine) (w : World) : Except String HM :=
  match w.file with
  | none => .ok []
  | some buffer =>
      match parseMap buffer with
      | some data => .ok data
      | none => .error "deserialize error"

/-- `Database`: the in-memory store, the storage engine and the auto-save
flag. -/
structure Database where
  store : HM
  storage : StorageEngine
  auto_save : Bool

namespace Database

/-- `Database::new`: empty store, auto-save on. -/
def new (file_path : String) : Database :=
  { store := [], storage := StorageEngine.new file_path, auto_save := true }

/-- `Database::count`. -/
def count (db : Database) : Nat := db.store.length

/-- `Database::get`. -/
def get (db : Database) (key : String) : Option Value := hmLookup key db.store

/-- `Database::exists`. -/
def existsKey (db : Database) (key : String) : Bool := hmContains key db.store

/-- `Database::insert`: unconditional insert-or-overwrite, then a full
save if auto-save is on; a save failure is propagated but the in-memory
mutation stays. -/
def insert (db : Database) (key : String) (value : Value) (w : World) :
    Except String Unit × Database × World :=
  let db' := { db with store := hmInsert key value db.store }
  if db'.auto_save then
    match db'.storage.save db'.store w with
    | .ok w' => (.ok (), db', w')
    | .error e => (.error e, db', w)
  else
    (.ok (), db', w)

/-- `Database::batch_insert`: insert every entry in order, then one save
at the end if auto-save is on; returns the number of entries processed. -/
def batch_insert (db : Database) (entries : List (String × Value)) (w : World) :
    Except String Nat × Database × World :=
  let cnt := entries.length
  let db' := { db with
                store := entries.foldl
                  (fun (s : HM) (p : String × Value) => hmInsert p.1 p.2 s)
                  db.store }
  if db'.auto_save then
    match db'.storage.save db'.store w with
    | .ok w' => (.ok cnt, db', w')
    | .error e => (.error e, db', w)
  else
    (.ok cnt, db', w)

/-- `Database::update`: overwrite only when the key exists, else a
"key not found" error; never touches storage. -/
def update (db : Database) (key : String) (value : Value) (w : World) :
    Except String Unit × Database × World :=
  if hmContains key db.store then
    (.ok (), { db with store := hmInsert key value db.store }, w)
  else
    (.error ("Key '" ++ key ++ "' not found"), db, w)

/-- `Database::delete`: remove the key if present, else a "key not found"
error; never touches storage. -/
def delete (db : Database) (key : String) (w : World) :
    Except String Unit × Database × World :=
  if (hmLookup key db.store).isSome then
    (.ok (), { db with store := hmErase key db.store }, w)
  else
    (.error ("Key '" ++ key ++ "' not found"), db, w)

/-- One iteration of the `batch_delete` loop body: remove the key when
present and count the removal. -/
def batchDeleteStep (acc : Nat × HM) (key : String) : Nat × HM :=
  if (hmLookup key acc.2).isSome then (acc.1 + 1, hmErase key acc.2)
  else acc

/-- `Database::batch_delete`: remove each listed key in order, counting
the removals that found their key; never touches storage. -/
def batch_delete (db : Database) (keys : List String) (w : World) :
    Nat × Database × World :=
  let res := keys.foldl batchDeleteStep (0, db.store)
  (res.1, { db with store := res.2 }, w)

end Database

/-! ## Round-trip lemmas for the wire format -/

theorem readLE_writeLE (k : Nat) : ∀ (n : Nat) (rest : Bytes),
    readLE k (writeLE k n ++ rest) = some (n % 2 ^ (8 * k), rest) := by
  induction k with
  | zero => intro n rest; simp [readLE, writeLE, Nat.mod_one]
  | succ k ih =>
      intro n rest
      have hpow : (2 : ℕ) ^ (8 * (k + 1)) = 256 * 2 ^ (8 * k) := by
        rw [show 8 * (k + 1) = 8 + 8 * k by ring, pow_add]
        norm_num
      simp only [writeLE, List.cons_append, readLE, List.append_eq, ih]
      rw [hpow, Nat.mod_mul]

theorem length_writeLE (k : Nat) : ∀ n : Nat, (writeLE k n).length = k := by
  induction k with
  | zero => intro n; simp [writeLE]
  | succ k ih => intro n; simp [writeLE, ih]

theorem parseStr_writeStr (s : String) (rest : Bytes)
    (h : s.data.length < 2 ^ 64) :
    parseStr (writeStr s ++ rest) = some (s, rest) := by
  unfold parseStr writeStr writeU64
  rw [List.append_assoc, readLE_writeLE]
  have hmod : s.data.length % 2 ^ (8 * 8) = s.data.length :=
    Nat.mod_eq_of_lt (by norm_num at h ⊢; omega)
  simp only [hmod]
  have hlen : s.data.length ≤ (s.data.map Char.toNat ++ rest).length := by
    simp
  rw [if_pos hlen]
  have hmaplen : s.data.length = (s.data.map Char.toNat).length := by simp
  rw [hmaplen, List.take_left, List.drop_left, List.map_map]
  have hid : s.data.map (Char.ofNat ∘ Char.toNat) = s.data := by
    simp [Function.comp_def, Char.ofNat_toNat]
  rw [hid]

theorem decodeI64_round (i : Int) (h1 : -(2 ^ 63) ≤ i) (h2 : i < 2 ^ 63) :
    decodeI64 ((i % (2 ^ 64 : Int)).toNat % 2 ^ (8 * 8)) = i := by
  unfold decodeI64
  have e64 : (2 : Int) ^ 64 = 18446744073709551616 := by norm_num
  have e63 : (2 : Int) ^ 63 = 9223372036854775808 := by norm_num
  have n63 : (2 : ℕ) ^ 63 = 9223372036854775808 := by norm_num
  have n88 : (2 : ℕ) ^ (8 * 8) = 18446744073709551616 := by norm_num
  rw [e64, n63, n88] at *
  split <;> omega

/-- Structural induction for `Value` with element-wise hypotheses for the
nested lists. -/
def Value.inductionOn
    (motive : Value → Prop)
    (hstring : ∀ s, motive (.string s))
    (hinteger : ∀ i, motive (.integer i))
    (hfloat : ∀ b, motive (.float b))
    (hboolean : ∀ b, motive (.boolean b))
    (hnull : motive .null)
    (harray : ∀ l, (∀ v ∈ l, motive v) → motive (.array l))
    (hobject : ∀ l, (∀ p ∈ l, motive p.2) → motive (.object l)) :
    ∀ v, motive v := fun v =>
  match v with
  | .string s => hstring s
  | .integer i => hinteger i
  | .float b => hfloat b
  | .boolean b => hboolean b
  | .null => hnull
  | .array l =>
      harray l (fun v _ =>
        Value.inductionOn motive hstring hinteger hfloat hboolean hnull
          harray hobject v)
  | .object l =>
      hobject l (fun p _ =>
        Value.inductionOn motive hstring hinteger hfloat hboolean hnull
          harray hobject p.2)
termination_by v => sizeOf v
decreasing_by
  · have h := List.sizeOf_lt_of_mem (show v ∈ l by assumption)
    simp only [Value.array.sizeOf_spec]
    omega
  · have h := List.sizeOf_lt_of_mem (show p ∈ l by assumption)
    have h2 : sizeOf p.2 < sizeOf p := by
      obtain ⟨a, b⟩ := p
      simp only [Prod.mk.sizeOf_spec]
      omega
    simp only [Value.object.sizeOf_spec]
    omega

theorem readLE_tag (t : Nat) (ht : t < 2 ^ 32) (r : Bytes) :
    readLE 4 (writeLE 4 t ++ r) = some (t, r) := by
  rw [readLE_writeLE]
  rw [Nat.mod_eq_of_lt (show t < 2 ^ (8 * 4) by norm_num at ht ⊢; omega)]

theorem readLE_u64 (n : Nat) (hn : n < 2 ^ 64) (r : Bytes) :
    readLE 8 (writeLE 8 n ++ r) = some (n, r) := by
  rw [readLE_writeLE]
  rw [Nat.mod_eq_of_lt (show n < 2 ^ (8 * 8) by norm_num at hn ⊢; omega)]

theorem parseValues_serList (l : List Value)
    (IH : ∀ v ∈ l, v.wf = true → ∀ fuel rest, v.size < fuel →
        parseValue fuel (serValue v ++ rest) = some (v, rest))
    (hwf : Value.wfList l = true) :
    ∀ fuel rest, Value.sizeList l < fuel →
      parseValues fuel l.length (serList l ++ rest) = some (l, rest) := by
  induction l with
  | nil => intro fuel rest _; simp [serList, parseValues]
  | cons v t ih =>
      intro fuel rest h
      simp only [Value.sizeList] at h
      simp only [Value.wfList, Bool.and_eq_true] at hwf
      simp only [serList, List.length_cons, List.append_assoc, parseValues,
        IH v (List.mem_cons_self v t) hwf.1 fuel (serList t ++ rest)
          (by omega),
        ih (fun u hu => IH u (List.mem_cons_of_mem v hu)) hwf.2 fuel rest
          (by omega)]

theorem parsePairs_serPairs (m : HM)
    (IH : ∀ p ∈ m, (Prod.snd p).wf = true → ∀ fuel rest,
        (Prod.snd p).size < fuel →
        parseValue fuel (serValue p.2 ++ rest) = some (p.2, rest))
    (hwf : Value.wfPairs m = true) :
    ∀ fuel rest, Value.sizePairs m < fuel →
      parsePairs fuel m.length (serPairs m ++ rest) = some (m, rest) := by
  induction m with
  | nil => intro fuel rest _; simp [serPairs, parsePairs]
  | cons p t ih =>
      intro fuel rest h
      obtain ⟨k, v⟩ := p
      simp only [Value.sizePairs] at h
      simp only [Value.wfPairs, Bool.and_eq_true, decide_eq_true_eq] at hwf
      simp only [serPairs, List.length_cons, List.append_assoc, parsePairs,
        parseStr_writeStr k (serValue v ++ (serPairs t ++ rest)) hwf.1.1,
        IH (k, v) (List.mem_cons_self (k, v) t) hwf.1.2 fuel
          (serPairs t ++ rest) (by show v.size < fuel; omega),
        ih (fun q hq => IH q (List.mem_cons_of_mem (k, v) hq)) hwf.2 fuel
          rest (by omega)]

theorem parseValue_serValue :
    ∀ v : Value, v.wf = true → ∀ fuel rest, v.size < fuel →
      parseValue fuel (serValue v ++ rest) = some (v, rest) := by
  intro v
  induction v using Value.inductionOn with
  | hstring s =>
      intro hwf fuel rest hs
      simp only [Value.size] at hs
      obtain ⟨f, rfl⟩ : ∃ f, fuel = f + 1 := ⟨fuel - 1, by omega⟩
      simp only [Value.wf, decide_eq_true_eq] at hwf
      simp only [serValue, List.append_assoc, parseValue,
        readLE_tag 0 (by norm_num) _, parseStr_writeStr s rest hwf]
  | hinteger i =>
      intro hwf fuel rest hs
      simp only [Value.size] at hs
      obtain ⟨f, rfl⟩ : ∃ f, fuel = f + 1 := ⟨fuel - 1, by omega⟩
      simp only [Value.wf, decide_eq_true_eq] at hwf
      simp only [serValue, writeI64, List.append_assoc, parseValue,
        readLE_tag 1 (by norm_num) _, readLE_writeLE,
        decodeI64_round i hwf.1 hwf.2]
  | hfloat b =>
      intro hwf fuel rest hs
      simp only [Value.size] at hs
      obtain ⟨f, rfl⟩ : ∃ f, fuel = f + 1 := ⟨fuel - 1, by omega⟩
      simp only [Value.wf, decide_eq_true_eq] at hwf
      simp only [serValue, writeU64, List.append_assoc, parseValue,
        readLE_tag 2 (by norm_num) _, readLE_writeLE,
        Nat.mod_eq_of_lt (show b < 2 ^ (8 * 8) by norm_num at hwf ⊢; omega)]
  | hboolean b =>
      intro hwf fuel rest hs
      simp only [Value.size] at hs
      obtain ⟨f, rfl⟩ : ∃ f, fuel = f + 1 := ⟨fuel - 1, by omega⟩
      cases b <;>
        simp [serValue, List.append_assoc, parseValue,
          readLE_tag 3 (by norm_num) _]
  | hnull =>
      intro hwf fuel rest hs
      simp only [Value.size] at hs
      obtain ⟨f, rfl⟩ : ∃ f, fuel = f + 1 := ⟨fuel - 1, by omega⟩
      simp only [serValue, parseValue, readLE_tag 6 (by norm_num) _]
  | harray l IH =>
      intro hwf fuel rest hs
      simp only [Value.size] at hs
      obtain ⟨f, rfl⟩ : ∃ f, fuel = f + 1 := ⟨fuel - 1, by omega⟩
      simp only [Value.wf, Bool.and_eq_true, decide_eq_true_eq] at hwf
      simp only [serValue, writeU64, List.append_assoc, parseValue,
        readLE_tag 4 (by norm_num) _,
        readLE_u64 l.length (by omega) _,
        parseValues_serList l IH hwf.2 f rest (by omega)]
  | hobject l IH =>
      intro hwf fuel rest hs
      simp only [Value.size] at hs
      obtain ⟨f, rfl⟩ : ∃ f, fuel = f + 1 := ⟨fuel - 1, by omega⟩
      simp only [Value.wf, Bool.and_eq_true, decide_eq_true_eq] at hwf
      simp only [serValue, writeU64, List.append_assoc, parseValue,
        readLE_tag 5 (by norm_num) _,
        readLE_u64 l.length (by omega) _,
        parsePairs_serPairs l IH hwf.2 f rest (by omega)]

theorem size_le_length_serValue : ∀ v : Value, v.size ≤ (serValue v).length := by
  intro v
  induction v using Value.inductionOn with
  | hstring s =>
      simp only [serValue, Value.size, writeStr, writeU64,
        List.length_append, length_writeLE]
      omega
  | hinteger i => simp [serValue, Value.size, writeI64, length_writeLE]
  | hfloat b => simp [serValue, Value.size, writeU64, length_writeLE]
  | hboolean b => simp [serValue, Value.size, length_writeLE]
  | hnull => simp [serValue, Value.size, length_writeLE]
  | harray l IH =>
      have hlist : Value.sizeList l ≤ (serList l).length := by
        induction l with
        | nil => simp [serList, Value.sizeList]
        | cons v t ih =>
            have h1 := IH v (List.mem_cons_self v t)
            have h2 := ih (fun u hu => IH u (List.mem_cons_of_mem v hu))
            simp only [serList, Value.sizeList, List.length_append]
            omega
      simp only [serValue, Value.size, writeU64, List.length_append,
        length_writeLE]
      omega
  | hobject l IH =>
      have hlist : Value.sizePairs l ≤ (serPairs l).length := by
        induction l with
        | nil => simp [serPairs, Value.sizePairs]
        | cons p t ih =>
            obtain ⟨k, v⟩ := p
            have h1 : v.size ≤ (serValue v).length :=
              IH (k, v) (List.mem_cons_self (k, v) t)
            have h2 := ih (fun q hq => IH q (List.mem_cons_of_mem (k, v) hq))
            simp only [serPairs, Value.sizePairs, List.length_append]
            omega
      simp only [serValue, Value.size, writeU64, List.length_append,
        length_writeLE]
      omega

theorem sizePairs_le_length_serPairs (m : HM) :
    Value.sizePairs m ≤ (serPairs m).length := by
  induction m with
  | nil => simp [serPairs, Value.sizePairs]
  | cons p t ih =>
      obtain ⟨k, v⟩ := p
      have h1 := size_le_length_serValue v
      simp only [serPairs, Value.sizePairs, List.length_append]
      omega

/-- The whole-store bincode round trip: decoding the encoding of any
well-formed store yields that very store. -/
theorem parseMap_serMap (m : HM) (hwf : wfMap m = true) :
    parseMap (serMap m) = some m := by
  simp only [wfMap, Bool.and_eq_true, decide_eq_true_eq] at hwf
  unfold parseMap serMap writeU64
  have hfuel : Value.sizePairs m <
      (writeLE 8 m.length ++ serPairs m).length + 1 := by
    have := sizePairs_le_length_serPairs m
    simp only [List.length_append, length_writeLE]
    omega
  have hpairs := parsePairs_serPairs m (fun p _ => parseValue_serValue p.2)
    hwf.2 ((writeLE 8 m.length ++ serPairs m).length + 1) [] hfuel
  rw [List.append_nil] at hpairs
  simp only [readLE_u64 m.length hwf.1 _, hpairs]


/-! ## Association-list lemmas for the `HashMap` model -/

theorem hmLookup_hmInsert (k k' : String) (v : Value) : ∀ m : HM,
    hmLookup k' (hmInsert k v m) = if k = k' then some v else hmLookup k' m := by
  intro m
  induction m with
  | nil => simp [hmInsert, hmLookup]
  | cons p t ih =>
      obtain ⟨k₀, v₀⟩ := p
      simp only [hmInsert]
      by_cases h0 : k₀ = k
      · subst h0
        simp only [if_pos rfl, hmLookup]
        by_cases h1 : k₀ = k' <;> simp [h1, hmLookup]
      · simp only [if_neg h0, hmLookup, ih]
        by_cases h1 : k₀ = k'
        · subst h1
          simp [show ¬k = k₀ from fun h => h0 h.symm]
        · simp [h1]

theorem hmErase_of_not_found (k : String) : ∀ m : HM,
    hmLookup k m = none → hmErase k m = m := by
  intro m
  induction m with
  | nil => intro _; rfl
  | cons p t ih =>
      obtain ⟨k₀, v₀⟩ := p
      intro h
      by_cases h0 : k₀ = k
      · simp [hmLookup, h0] at h
      · simp only [hmLookup, if_neg h0] at h
        simp [hmErase, h0, ih h]

theorem length_hmErase_of_found (k : String) : ∀ m : HM,
    (hmLookup k m).isSome = true → (hmErase k m).length + 1 = m.length := by
  intro m
  induction m with
  | nil => intro h; simp [hmLookup] at h
  | cons p t ih =>
      obtain ⟨k₀, v₀⟩ := p
      intro h
      by_cases h0 : k₀ = k
      · simp [hmErase, h0]
      · simp only [hmLookup, if_neg h0] at h
        simp [hmErase, h0, ih h]

theorem hmErase_sublist (k : String) : ∀ m : HM, List.Sublist (hmErase k m) m := by
  intro m
  induction m with
  | nil => simp [hmErase]
  | cons p t ih =>
      obtain ⟨k₀, v₀⟩ := p
      by_cases h0 : k₀ = k
      · rw [show hmErase k ((k₀, v₀) :: t) = t by simp [hmErase, h0]]
        exact List.sublist_cons_self (k₀, v₀) t
      · simpa [hmErase, h0] using ih.cons₂ (k₀, v₀)

theorem noDupKeys_hmErase (k : String) (m : HM) (h : NoDupKeys m) :
    NoDupKeys (hmErase k m) :=
  h.sublist ((hmErase_sublist k m).map Prod.fst)

theorem hmLookup_isSome_iff_mem_keys (k : String) : ∀ m : HM,
    (hmLookup k m).isSome = true ↔ k ∈ m.map Prod.fst := by
  intro m
  induction m with
  | nil => simp [hmLookup]
  | cons p t ih =>
      obtain ⟨k₀, v₀⟩ := p
      by_cases h0 : k₀ = k
      · subst h0; simp [hmLookup]
      · rw [show hmLookup k ((k₀, v₀) :: t) = hmLookup k t by
              simp [hmLookup, h0], ih]
        simp [show k ≠ k₀ from fun h => h0 h.symm]

theorem hmLookup_hmErase_other (k k' : String) (h : k ≠ k') : ∀ m : HM,
    hmLookup k' (hmErase k m) = hmLookup k' m := by
  intro m
  induction m with
  | nil => rfl
  | cons p t ih =>
      obtain ⟨k₀, v₀⟩ := p
      by_cases h0 : k₀ = k
      · subst h0
        simp [hmErase, hmLookup, h]
      · by_cases h1 : k₀ = k'
        · subst h1
          simp [hmErase, hmLookup, h0]
        · simp [hmErase, hmLookup, h0, h1, ih]

theorem hmLookup_hmErase_self (k : String) : ∀ m : HM, NoDupKeys m →
    hmLookup k (hmErase k m) = none := by
  intro m
  induction m with
  | nil => intro _; rfl
  | cons p t ih =>
      obtain ⟨k₀, v₀⟩ := p
      intro hnd
      have hnd2 := hnd
      simp only [NoDupKeys, List.map_cons, List.nodup_cons] at hnd2
      obtain ⟨hk₀, hnd'⟩ := hnd2
      by_cases h0 : k₀ = k
      · subst h0
        have he : hmErase k₀ ((k₀, v₀) :: t) = t := by simp [hmErase]
        rw [he]
        cases hl : hmLookup k₀ t with
        | none => rfl
        | some v =>
            exact absurd ((hmLookup_isSome_iff_mem_keys k₀ t).mp
              (by simp [hl])) hk₀
      · simp only [hmErase, if_neg h0, hmLookup, if_neg h0]
        exact ih hnd'

theorem hmLookup_hmErase_isSome (k x : String) (m : HM) (hnd : NoDupKeys m) :
    (hmLookup x (hmErase k m)).isSome = true ↔
      (hmLookup x m).isSome = true ∧ x ≠ k := by
  by_cases hx : x = k
  · subst hx
    simp [hmLookup_hmErase_self x m hnd]
  · rw [hmLookup_hmErase_other k x (fun h => hx h.symm) m]
    simp [hx]

/-! ## Lemmas about the batch-operation loops -/

theorem hmLookup_foldl_hmInsert (entries : List (String × Value)) :
    ∀ (s : HM) (k : String),
      hmLookup k (entries.foldl
          (fun (s : HM) (p : String × Value) => hmInsert p.1 p.2 s) s)
        = match entries.reverse.find? (fun p => p.1 == k) with
          | some p => some p.2
          | none => hmLookup k s := by
  induction entries with
  | nil => intro s k; simp
  | cons e es ih =>
      intro s k
      simp only [List.foldl_cons, List.reverse_cons, List.find?_append, ih]
      cases hfind : es.reverse.find? (fun p => p.1 == k) with
      | some p => simp [Option.or]
      | none =>
          simp only [Option.or, hmLookup_hmInsert]
          by_cases he : e.1 = k
          · have hb : (e.1 == k) = true := beq_iff_eq.mpr he
            simp [List.find?, hb, he]
          · have hb : (e.1 == k) = false := beq_eq_false_iff_ne.mpr he
            simp [List.find?, hb, he]

theorem batchDelete_store (keys : List String) : ∀ (c : Nat) (s : HM),
    (keys.foldl Database.batchDeleteStep (c, s)).2
      = keys.foldl (fun s k => hmErase k s) s := by
  induction keys with
  | nil => intro c s; rfl
  | cons k ks ih =>
      intro c s
      simp only [List.foldl_cons, Database.batchDeleteStep]
      by_cases hk : (hmLookup k s).isSome = true
      · simp only [hk, if_true, ih]
      · have hnone : hmLookup k s = none := by
          cases h : hmLookup k s with
          | none => rfl
          | some v => rw [h] at hk; simp at hk
        simp only [hk, if_false, ih, Bool.false_eq_true]
        rw [hmErase_of_not_found k s hnone]

theorem noDupKeys_foldl_hmErase (keys : List String) : ∀ s : HM,
    NoDupKeys s → NoDupKeys (keys.foldl (fun s k => hmErase k s) s) := by
  induction keys with
  | nil => intro s h; exact h
  | cons k ks ih =>
      intro s h
      exact ih (hmErase k s) (noDupKeys_hmErase k s h)

theorem hmLookup_foldl_hmErase (keys : List String) :
    ∀ (s : HM) (x : String), NoDupKeys s →
      hmLookup x (keys.foldl (fun s k => hmErase k s) s)
        = if x ∈ keys then none else hmLookup x s := by
  induction keys with
  | nil => intro s x _; simp
  | cons k ks ih =>
      intro s x hnd
      simp only [List.foldl_cons]
      rw [ih (hmErase k s) x (noDupKeys_hmErase k s hnd)]
      by_cases h1 : x ∈ ks
      · simp [h1]
      · by_cases h2 : x = k
        · subst h2
          simp [h1, hmLookup_hmErase_self x s hnd]
        · simp [h1, h2,
            hmLookup_hmErase_other k x (fun h => h2 h.symm) s]

theorem batchDelete_count (keys : List String) : ∀ (c : Nat) (s : HM),
    NoDupKeys s →
    (keys.foldl Database.batchDeleteStep (c, s)).1
      = c + (keys.toFinset ∩ (s.map Prod.fst).toFinset).card := by
  induction keys with
  | nil => intro c s _; simp
  | cons k ks ih =>
      intro c s hnd
      simp only [List.foldl_cons, Database.batchDeleteStep,
        List.toFinset_cons]
      by_cases hk : (hmLookup k s).isSome = true
      · have hkS : k ∈ (s.map Prod.fst).toFinset := by
          rw [List.mem_toFinset]
          exact (hmLookup_isSome_iff_mem_keys k s).mp hk
        have hkeysE : ((hmErase k s).map Prod.fst).toFinset
            = ((s.map Prod.fst).toFinset).erase k := by
          ext x
          rw [List.mem_toFinset, Finset.mem_erase, List.mem_toFinset,
            ← hmLookup_isSome_iff_mem_keys, ← hmLookup_isSome_iff_mem_keys,
            hmLookup_hmErase_isSome k x s hnd]
          tauto
        have hset : insert k ks.toFinset ∩ (s.map Prod.fst).toFinset
            = insert k
                (ks.toFinset ∩ ((s.map Prod.fst).toFinset).erase k) := by
          ext x
          simp only [Finset.mem_inter, Finset.mem_insert, Finset.mem_erase]
          by_cases hx : x = k
          · subst hx
            simp [hkS]
          · tauto
        rw [if_pos hk, ih (c + 1) (hmErase k s) (noDupKeys_hmErase k s hnd),
          hkeysE, hset,
          Finset.card_insert_of_not_mem (by simp [Finset.mem_erase])]
        omega
      · have hkS : k ∉ (s.map Prod.fst).toFinset := by
          rw [List.mem_toFinset, ← hmLookup_isSome_iff_mem_keys]
          exact hk
        have hset : insert k ks.toFinset ∩ (s.map Prod.fst).toFinset
            = ks.toFinset ∩ (s.map Prod.fst).toFinset := by
          ext x
          simp only [Finset.mem_inter, Finset.mem_insert]
          constructor
          · rintro ⟨rfl | hx, hxS⟩
            · exact absurd hxS hkS
            · exact ⟨hx, hxS⟩
          · rintro ⟨hx, hxS⟩
            exact ⟨Or.inr hx, hxS⟩
        rw [if_neg hk, ih c s hnd, hset]

/-! ## The claims -/

/-- C1: saving any well-formed store with `StorageEngine.save` and loading
it back with `StorageEngine.load` succeeds and reproduces the store
structurally unchanged, for all seven `Value` variants including nested
arrays and objects. -/
theorem save_load_roundtrip (e : StorageEngine) (w : World) (m : HM)
    (hdisk : w.diskOk = true) (hwf : wfMap m = true) :
    ∃ w', e.save m w = .ok w' ∧ e.load w' = .ok m := by
  refine ⟨{ w with file := some (serMap m), writes := w.writes + 1 }, ?_, ?_⟩
  · unfold StorageEngine.save
    rw [hdisk]
    simp
  · unfold StorageEngine.load
    simp [parseMap_serMap m hwf]

/-- C2: `StorageEngine.load` on a non-existent file succeeds with the
empty store instead of failing. -/
theorem load_missing_file (e : StorageEngine) (w : World)
    (h : w.file = none) : e.load w = .ok [] := by
  unfold StorageEngine.load
  rw [h]

/-- C3: `Database.update` on an absent key fails with a "key not found"
error and leaves the store unchanged; on a present key it succeeds and
overwrites exactly that key; in both cases the outside world (hence the
storage file) is untouched — update never saves. -/
theorem update_spec (db : Database) (w : World) (key : String)
    (value : Value) :
    (db.update key value w).2.2 = w ∧
    (hmLookup key db.store = none →
      (db.update key value w).1 = .error ("Key '" ++ key ++ "' not found") ∧
      (db.update key value w).2.1 = db) ∧
    ((hmLookup key db.store).isSome = true →
      (db.update key value w).1 = .ok () ∧
      (db.update key value w).2.1.store = hmInsert key value db.store ∧
      hmLookup key (db.update key value w).2.1.store = some value ∧
      (∀ k', k' ≠ key →
        hmLookup k' (db.update key value w).2.1.store
          = hmLookup k' db.store)) := by
  unfold Database.update hmContains
  refine ⟨?_, ?_, ?_⟩
  · by_cases h : (hmLookup key db.store).isSome = true <;> simp [h]
  · intro h
    simp [h]
  · intro h
    rw [if_pos h]
    refine ⟨rfl, rfl, ?_, ?_⟩
    · simp [hmLookup_hmInsert]
    · intro k' hk'
      rw [show ({ db with store := hmInsert key value db.store } :
            Database).store = hmInsert key value db.store from rfl,
        hmLookup_hmInsert, if_neg (fun hh => hk' hh.symm)]

/-- C4: `Database.delete` on an absent key returns the "key not found"
error and leaves the entry count unchanged; on a present key it succeeds,
removes exactly that entry, and decreases the count by exactly one. -/
theorem delete_spec (db : Database) (w : World) (key : String)
    (hnd : NoDupKeys db.store) :
    (db.delete key w).2.2 = w ∧
    (hmLookup key db.store = none →
      (db.delete key w).1 = .error ("Key '" ++ key ++ "' not found") ∧
      (db.delete key w).2.1 = db ∧
      (db.delete key w).2.1.count = db.count) ∧
    ((hmLookup key db.store).isSome = true →
      (db.delete key w).1 = .ok () ∧
      hmLookup key (db.delete key w).2.1.store = none ∧
      (∀ k', k' ≠ key →
        hmLookup k' (db.delete key w).2.1.store = hmLookup k' db.store) ∧
      (db.delete key w).2.1.count + 1 = db.count) := by
  unfold Database.delete
  refine ⟨?_, ?_, ?_⟩
  · by_cases h : (hmLookup key db.store).isSome = true <;> simp [h]
  · intro h
    simp [h]
  · intro h
    rw [if_pos h]
    refine ⟨rfl, ?_, ?_, ?_⟩
    · exact hmLookup_hmErase_self key db.store hnd
    · intro k' hk'
      exact hmLookup_hmErase_other key k' (fun hh => hk' hh.symm) db.store
    · exact length_hmErase_of_found key db.store h

/-- C5: `Condition.Between(field, min, max)` matches a value exactly when
the field resolves through `get_field` and `as_integer` to an integer `x`
with `min ≤ x ≤ max`, inclusive on both ends; it is false when the field
is absent or not an `Integer`. -/
theorem between_matches_iff (v : Value) (field : String) (min max : Int) :
    (Condition.between field min max).matches v = true ↔
      ∃ x : Int, (v.get_field field).bind Value.as_integer = some x ∧
        min ≤ x ∧ x ≤ max := by
  simp only [Condition.matches]
  cases hf : v.get_field field with
  | none => simp
  | some a =>
      cases ha : a.as_integer with
      | none => simp [ha]
      | some x => simp [ha]

/-- C6: `Condition.GreaterThan` and `Condition.LessThan` match exactly
when the field resolves through `get_field` and `as_integer` to an
integer winning the strict comparison; any absent field or non-`Integer`
variant (`Float` and `String` included — no coercion) yields false. -/
theorem comparison_matches_iff (v : Value) (field : String)
    (threshold : Int) :
    ((Condition.greaterThan field threshold).matches v = true ↔
      ∃ x : Int, (v.get_field field).bind Value.as_integer = some x ∧
        x > threshold) ∧
    ((Condition.lessThan field threshold).matches v = true ↔
      ∃ x : Int, (v.get_field field).bind Value.as_integer = some x ∧
        x < threshold) := by
  constructor <;>
  · simp only [Condition.matches]
    cases hf : v.get_field field with
    | none => simp
    | some a =>
        cases ha : a.as_integer with
        | none => simp [ha]
        | some x => simp [ha]

/-- C7: `Database.batch_insert` applies every entry in order as an
insert-or-overwrite (the last occurrence of a duplicated key wins),
returns the number of entries processed (the input length), and performs
exactly one save at the end when auto-save is on — never one per entry —
and none when auto-save is off. -/
theorem batch_insert_spec (db : Database) (w : World)
    (entries : List (String × Value)) (hdisk : w.diskOk = true) :
    (db.batch_insert entries w).1 = .ok entries.length ∧
    (db.batch_insert entries w).2.1.store
      = entries.foldl
          (fun (s : HM) (p : String × Value) => hmInsert p.1 p.2 s)
          db.store ∧
    (∀ k, hmLookup k (db.batch_insert entries w).2.1.store
        = match entries.reverse.find? (fun p => p.1 == k) with
          | some p => some p.2
          | none => hmLookup k db.store) ∧
    (db.batch_insert entries w).2.2.writes
      = w.writes + (if db.auto_save then 1 else 0) ∧
    (db.auto_save = false → (db.batch_insert entries w).2.2 = w) := by
  unfold Database.batch_insert StorageEngine.save
  by_cases hauto : db.auto_save
  · simp [hauto, hdisk, hmLookup_foldl_hmInsert]
  · simp [hauto, hmLookup_foldl_hmInsert]

/-- C8: when auto-save is on and the disk write fails, `Database.insert`
propagates the save error to the caller but does not roll back the
in-memory mutation: the store still holds the new value while the file is
unchanged. -/
theorem insert_save_failure (db : Database) (w : World) (key : String)
    (value : Value) (hauto : db.auto_save = true) (hdisk : w.diskOk = false) :
    (db.insert key value w).1 = .error "io error" ∧
    (db.insert key value w).2.1.store = hmInsert key value db.store ∧
    hmLookup key (db.insert key value w).2.1.store = some value ∧
    (db.insert key value w).2.2 = w := by
  unfold Database.insert StorageEngine.save
  simp [hauto, hdisk, hmLookup_hmInsert]

/-- C9: `Database.new` produces an empty store with auto-save enabled and
a storage engine aimed at exactly the given path. -/
theorem new_spec (file_path : String) :
    (Database.new file_path).store = [] ∧
    (Database.new file_path).auto_save = true ∧
    (Database.new file_path).storage.file_path = file_path :=
  ⟨rfl, rfl, rfl⟩

/-- C10: `Database.batch_delete` removes every listed key that is
present, returns the number of distinct listed keys present before the
call (a duplicated key counts at most once), and never touches storage. -/
theorem batch_delete_spec (db : Database) (w : World) (keys : List String)
    (hnd : NoDupKeys db.store) :
    (db.batch_delete keys w).2.2 = w ∧
    (db.batch_delete keys w).1
      = (keys.toFinset ∩ (db.store.map Prod.fst).toFinset).card ∧
    (∀ x, hmLookup x (db.batch_delete keys w).2.1.store
        = if x ∈ keys then none else hmLookup x db.store) := by
  unfold Database.batch_delete
  refine ⟨rfl, ?_, ?_⟩
  · simpa using batchDelete_count keys 0 db.store hnd
  · intro x
    show hmLookup x (keys.foldl Database.batchDeleteStep (0, db.store)).2
        = _
    rw [batchDelete_store keys 0 db.store]
    exact hmLookup_foldl_hmErase keys db.store x hnd

/-! ## Concrete instances used by the witnesses -/

/-- A store exercising all seven `Value` variants, with nesting. -/
def exMap : HM :=
  [("a", .string "hi"),
   ("b", .integer (-5)),
   ("c", .float 4620693217682128896),
   ("d", .boolean true),
   ("e", .array [.integer 1, .null, .object [("x", .boolean false)]]),
   ("f", .object [("k", .array [.string "q"])]),
   ("g", .null)]

/-- A small two-entry store. -/
def exStore : HM := [("a", Value.integer 1), ("b", Value.string "s")]

/-- A database over `exStore` with auto-save on. -/
def exDb : Database :=
  { store := exStore, storage := { file_path := "db.bin" }, auto_save := true }

/-- A healthy world with no file yet. -/
def exW : World := { file := none, diskOk := true, writes := 0 }

/-- A world whose disk writes fail. -/
def exWBad : World := { file := none, diskOk := false, writes := 0 }

theorem save_load_roundtrip_witness :
    ∃ w', StorageEngine.save ⟨"db.bin"⟩ exMap exW = .ok w' ∧
      StorageEngine.load ⟨"db.bin"⟩ w' = .ok exMap :=
  save_load_roundtrip ⟨"db.bin"⟩ exW exMap rfl (by decide)

theorem load_missing_file_witness :
    StorageEngine.load ⟨"db.bin"⟩ exW = .ok [] :=
  load_missing_file ⟨"db.bin"⟩ exW rfl

theorem update_spec_witness :
    (exDb.update "a" (Value.integer 2) exW).1 = .ok () ∧
    hmLookup "a" (exDb.update "a" (Value.integer 2) exW).2.1.store
      = some (Value.integer 2) ∧
    (exDb.update "a" (Value.integer 2) exW).2.2 = exW ∧
    (exDb.update "zzz" (Value.integer 2) exW).1
      = .error ("Key '" ++ "zzz" ++ "' not found") ∧
    (exDb.update "zzz" (Value.integer 2) exW).2.1 = exDb := by
  have h1 := update_spec exDb exW "a" (Value.integer 2)
  have h2 := update_spec exDb exW "zzz" (Value.integer 2)
  have hp := h1.2.2 (by rfl)
  have ha := h2.2.1 (by rfl)
  exact ⟨hp.1, hp.2.2.1, h1.1, ha.1, ha.2⟩

theorem delete_spec_witness :
    (exDb.delete "a" exW).1 = .ok () ∧
    hmLookup "a" (exDb.delete "a" exW).2.1.store = none ∧
    (exDb.delete "a" exW).2.1.count + 1 = exDb.count ∧
    (exDb.delete "zzz" exW).1 = .error ("Key '" ++ "zzz" ++ "' not found") ∧
    (exDb.delete "zzz" exW).2.1.count = exDb.count := by
  have h1 := delete_spec exDb exW "a" (by unfold NoDupKeys; decide)
  have h2 := delete_spec exDb exW "zzz" (by unfold NoDupKeys; decide)
  have hp := h1.2.2 (by rfl)
  have ha := h2.2.1 (by rfl)
  exact ⟨hp.1, hp.2.1, hp.2.2.2, ha.1, ha.2.2⟩

theorem batch_insert_spec_witness :
    (exDb.batch_insert
        [("x", Value.integer 1), ("x", Value.integer 2)] exW).1 = .ok 2 ∧
    hmLookup "x" (exDb.batch_insert
        [("x", Value.integer 1), ("x", Value.integer 2)] exW).2.1.store
      = some (Value.integer 2) ∧
    (exDb.batch_insert
        [("x", Value.integer 1), ("x", Value.integer 2)] exW).2.2.writes
      = 1 := by
  have h := batch_insert_spec exDb exW
    [("x", Value.integer 1), ("x", Value.integer 2)] rfl
  refine ⟨h.1, ?_, ?_⟩
  · rw [h.2.2.1 "x"]
    rfl
  · rw [h.2.2.2.1]
    rfl

theorem insert_save_failure_witness :
    (exDb.insert "x" Value.null exWBad).1 = .error "io error" ∧
    hmLookup "x" (exDb.insert "x" Value.null exWBad).2.1.store
      = some Value.null ∧
    (exDb.insert "x" Value.null exWBad).2.2 = exWBad := by
  have h := insert_save_failure exDb exWBad "x" Value.null rfl rfl
  exact ⟨h.1, h.2.2.1, h.2.2.2⟩

theorem batch_delete_spec_witness :
    (exDb.batch_delete ["a", "a", "zzz"] exW).1 = 1 ∧
    hmLookup "a" (exDb.batch_delete ["a", "a", "zzz"] exW).2.1.store
      = none ∧
    hmLookup "b" (exDb.batch_delete ["a", "a", "zzz"] exW).2.1.store
      = some (Value.string "s") ∧
    (exDb.batch_delete ["a", "a", "zzz"] exW).2.2 = exW := by
  have h := batch_delete_spec exDb exW ["a", "a", "zzz"]
    (by unfold NoDupKeys; decide)
  refine ⟨?_, ?_, ?_, h.1⟩
  · rw [h.2.1]
    rfl
  · rw [h.2.2 "a"]
    rfl
  · rw [h.2.2 "b"]
    rfl
